import Mathlib

/-!
Verification of the permissio-go client-side authorization evaluator.

This file gives a shallow embedding of the permission evaluation engine and
the resilient transport layer of the Go SDK:

* `getRolePermissions` / `expandAux` embed the cycle-safe role-inheritance
  expansion (`Client.getRolePermissions`), with the `visited` set threaded
  explicitly (the Go code mutates one shared map per top-level expansion).
* `checkWithDetails` embeds the pure decision core of
  `Client.CheckWithDetails`, with the three remote fetches (scope, role
  assignments, role catalog) supplied as oracled `Except` results.
* `bulkCheck` embeds `Client.BulkCheck`, including the unchecked dynamic
  type assertion on `CheckRequest.User` (a failed assertion, i.e. a Go
  panic, is modelled as `none`).
* `request` embeds the retry loop of `BaseClient.Request`, with per-attempt
  outcomes and context cancellation supplied as oracles.
* `ensureScopeStep` embeds `Client.ensureScope` / `fetchAndSetScope` as a
  state transition on the scope cell.

Go map iteration order is unspecified; wherever the Go code ranges over a
map of role keys the embedding uses first-seen order, and only
order-insensitive facts are claimed about those parts.
-/

namespace Permisio

/-- A role definition fetched from the remote catalog (`models.RoleRead`):
its key, its declared permission strings, and the keys of the parent roles
it inherits from (the Go field `Extends`, here `exts`). -/
structure RoleRead where
  key : String
  permissions : List String
  exts : List String
deriving Repr, DecidableEq

/-- A role assignment fact (`models.RoleAssignmentRead`), restricted to the
fields the evaluator reads. -/
structure RoleAssignmentRead where
  user : String
  role : String
  tenant : String
deriving Repr, DecidableEq

/-- Lookup in the role catalog map. `CheckWithDetails` builds
`rolesMap[role.Key] = role` by iterating over the fetched data in order, so
a duplicate key is overwritten by the later entry; the fold mirrors that. -/
def lookupRole (data : List RoleRead) (k : String) : Option RoleRead :=
  data.foldl (fun acc r => if r.key = k then some r else acc) none

/-- The deduplication loop at the end of `getRolePermissions`: keep the
first occurrence of each string, in order, skipping strings already in
`seen`. -/
def dedupGo (seen : List String) : List String → List String
  | [] => []
  | x :: xs => if x ∈ seen then dedupGo seen xs else x :: dedupGo (x :: seen) xs

/-- First-seen-order deduplication with an empty `seen` set, as performed on
the collected permission list of one role. -/
def dedupFirst (l : List String) : List String := dedupGo [] l

/-- Number of catalog entries whose key is not yet in the visited set; the
termination measure of the expansion. -/
def unvisited (data : List RoleRead) (visited : List String) : Nat :=
  (data.filter (fun r => decide (r.key ∉ visited))).length

theorem filter_length_mono {α : Type} (l : List α) (p q : α → Bool)
    (h : ∀ a, q a = true → p a = true) :
    (l.filter q).length ≤ (l.filter p).length := by
  induction l with
  | nil => simp
  | cons a t ih =>
    cases hq : q a with
    | true =>
      have hp := h a hq
      simp [List.filter_cons, hq, hp]
      omega
    | false =>
      cases hp : p a <;> simp [List.filter_cons, hq, hp] <;> omega

theorem filter_length_lt {α : Type} (l : List α) (p q : α → Bool)
    (h : ∀ a, q a = true → p a = true) (a0 : α) (ha0 : a0 ∈ l)
    (hq0 : q a0 = false) (hp0 : p a0 = true) :
    (l.filter q).length < (l.filter p).length := by
  induction l with
  | nil => cases ha0
  | cons a t ih =>
    rcases List.mem_cons.mp ha0 with rfl | hmem
    · have hmono := filter_length_mono t p q h
      simp [List.filter_cons, hq0, hp0]
      omega
    · have hlt := ih hmem
      cases hq : q a with
      | true =>
        have hp := h a hq
        simp [List.filter_cons, hq, hp]
        omega
      | false =>
        cases hp : p a <;> simp [List.filter_cons, hq, hp] <;> omega

theorem unvisited_mono (data : List RoleRead) {v w : List String}
    (h : ∀ x, x ∈ v → x ∈ w) : unvisited data w ≤ unvisited data v := by
  simp only [unvisited]
  apply filter_length_mono
  intro r hr
  simp only [decide_eq_true_eq] at hr ⊢
  exact fun hx => hr (h _ hx)

theorem foldl_lookup_aux (k : String) (role : RoleRead) :
    ∀ (data : List RoleRead) (acc : Option RoleRead),
      data.foldl (fun acc r => if r.key = k then some r else acc) acc = some role →
      (∃ r ∈ data, r.key = k) ∨ acc = some role
  | [], _, h => Or.inr h
  | r :: t, acc, h => by
    simp only [List.foldl_cons] at h
    rcases foldl_lookup_aux k role t _ h with h1 | h2
    · obtain ⟨r1, hr1, hk1⟩ := h1
      exact Or.inl ⟨r1, List.mem_cons_of_mem _ hr1, hk1⟩
    · by_cases hkr : r.key = k
      · exact Or.inl ⟨r, List.mem_cons_self _ _, hkr⟩
      · rw [if_neg hkr] at h2
        exact Or.inr h2

theorem lookupRole_mem {data : List RoleRead} {k : String} {role : RoleRead}
    (h : lookupRole data k = some role) : ∃ r ∈ data, r.key = k := by
  rcases foldl_lookup_aux k role data none h with h1 | h2
  · exact h1
  · cases h2

theorem unvisited_lt (data : List RoleRead) (k : String) (v : List String)
    (hk : k ∉ v) (hmem : ∃ r ∈ data, r.key = k) :
    unvisited data (k :: v) < unvisited data v := by
  obtain ⟨r0, hr0, hkey⟩ := hmem
  simp only [unvisited]
  apply filter_length_lt data _ _ _ r0 hr0
  · simp [hkey]
  · simp [hkey, hk]
  · intro r hr
    simp only [decide_eq_true_eq] at hr ⊢
    exact fun hx => hr (List.mem_cons_of_mem _ hx)

/-- Embedding of `Client.getRolePermissions`, generalised to a worklist of
role keys expanded sequentially at one nesting level. Processing one key
mirrors the Go function body: a key already in `visited` contributes
nothing; the key is marked visited before the catalog lookup; an unknown
key contributes nothing; otherwise the declared permissions are followed by
the expansions of the `exts` parents in declaration order and the combined
list is deduplicated first-seen. The returned visited list is threaded to
the remaining keys because the Go code mutates a single shared map; the
syntactic `++ k :: visited` is membership-equal to the returned visited set
(which always contains it) and exists for the termination measure. -/
def expandAux (data : List RoleRead) : List String → List String → List String × List String
  | [], visited => ([], visited)
  | k :: rest, visited =>
    if hk : k ∈ visited then
      expandAux data rest visited
    else
      match hl : lookupRole data k with
      | none => expandAux data rest (k :: visited)
      | some role =>
        let pr := expandAux data role.exts (k :: visited)
        let rr := expandAux data rest (pr.2 ++ k :: visited)
        (dedupGo [] (role.permissions ++ pr.1) ++ rr.1, rr.2)
termination_by keys visited => (unvisited data visited, keys.length)
decreasing_by
  · apply Prod.Lex.right
    simp
  · have hle : unvisited data (k :: visited) ≤ unvisited data visited :=
      unvisited_mono data (fun x hx => List.mem_cons_of_mem _ hx)
    rcases lt_or_eq_of_le hle with hlt | heq
    · exact Prod.Lex.left _ _ hlt
    · rw [heq]
      apply Prod.Lex.right
      simp
  · exact Prod.Lex.left _ _ (unvisited_lt data k visited hk (lookupRole_mem hl))
  · have hle : unvisited data (pr.2 ++ k :: visited) ≤ unvisited data visited := by
      apply unvisited_mono
      intro x hx
      exact List.mem_append_right _ (List.mem_cons_of_mem _ hx)
    rcases lt_or_eq_of_le hle with hlt | heq
    · exact Prod.Lex.left _ _ hlt
    · rw [heq]
      apply Prod.Lex.right
      simp

/-- Raw depth-first permission collection: identical control flow and
visited-set threading as `expandAux`, but with no deduplication anywhere.
Used to state that the expansion result is exactly the first-seen-order
deduplication of the raw depth-first permission stream. -/
def collectAux (data : List RoleRead) : List String → List String → List String × List String
  | [], visited => ([], visited)
  | k :: rest, visited =>
    if hk : k ∈ visited then
      collectAux data rest visited
    else
      match hl : lookupRole data k with
      | none => collectAux data rest (k :: visited)
      | some role =>
        let pr := collectAux data role.exts (k :: visited)
        let rr := collectAux data rest (pr.2 ++ k :: visited)
        (role.permissions ++ pr.1 ++ rr.1, rr.2)
termination_by keys visited => (unvisited data visited, keys.length)
decreasing_by
  · apply Prod.Lex.right
    simp
  · have hle : unvisited data (k :: visited) ≤ unvisited data visited :=
      unvisited_mono data (fun x hx => List.mem_cons_of_mem _ hx)
    rcases lt_or_eq_of_le hle with hlt | heq
    · exact Prod.Lex.left _ _ hlt
    · rw [heq]
      apply Prod.Lex.right
      simp
  · exact Prod.Lex.left _ _ (unvisited_lt data k visited hk (lookupRole_mem hl))
  · have hle : unvisited data (pr.2 ++ k :: visited) ≤ unvisited data visited := by
      apply unvisited_mono
      intro x hx
      exact List.mem_append_right _ (List.mem_cons_of_mem _ hx)
    rcases lt_or_eq_of_le hle with hlt | heq
    · exact Prod.Lex.left _ _ hlt
    · rw [heq]
      apply Prod.Lex.right
      simp

/-- Embedding of the top-level `Client.getRolePermissions(roleKey, rolesMap,
make(map[string]struct))` call: one key, fresh visited set. -/
def getRolePermissions (data : List RoleRead) (roleKey : String) : List String :=
  (expandAux data [roleKey] []).1

theorem mem_dedupGo {x : String} :
    ∀ {l seen : List String}, x ∈ dedupGo seen l ↔ x ∈ l ∧ x ∉ seen := by
  intro l
  induction l with
  | nil => intro seen; simp [dedupGo]
  | cons y ys ih =>
    intro seen
    by_cases h : y ∈ seen
    · rw [dedupGo, if_pos h, ih]
      constructor
      · rintro ⟨hx, hs⟩
        exact ⟨List.mem_cons_of_mem _ hx, hs⟩
      · rintro ⟨hx, hs⟩
        rcases List.mem_cons.mp hx with rfl | hx2
        · exact absurd h hs
        · exact ⟨hx2, hs⟩
    · rw [dedupGo, if_neg h]
      constructor
      · intro hx
        rcases List.mem_cons.mp hx with rfl | hx2
        · exact ⟨List.mem_cons_self _ _, h⟩
        · rcases ih.mp hx2 with ⟨hys, hns⟩
          refine ⟨List.mem_cons_of_mem _ hys, fun hs => hns (List.mem_cons_of_mem _ hs)⟩
      · rintro ⟨hx, hs⟩
        rcases List.mem_cons.mp hx with rfl | hx2
        · exact List.mem_cons_self _ _
        · by_cases hxy : x = y
          · subst hxy; exact List.mem_cons_self _ _
          · refine List.mem_cons_of_mem _ (ih.mpr ⟨hx2, ?_⟩)
            intro hmem
            rcases List.mem_cons.mp hmem with h1 | h1
            · exact hxy h1
            · exact hs h1

theorem mem_dedupFirst {x : String} {l : List String} :
    x ∈ dedupFirst l ↔ x ∈ l := by
  rw [dedupFirst, mem_dedupGo]
  simp

theorem nodup_dedupGo : ∀ (l seen : List String), (dedupGo seen l).Nodup := by
  intro l
  induction l with
  | nil => intro seen; simp [dedupGo]
  | cons y ys ih =>
    intro seen
    by_cases h : y ∈ seen
    · rw [dedupGo, if_pos h]; exact ih seen
    · rw [dedupGo, if_neg h]
      refine List.nodup_cons.mpr ⟨fun hmem => ?_, ih _⟩
      rcases mem_dedupGo.mp hmem with ⟨_, hns⟩
      exact hns (List.mem_cons_self _ _)

theorem dedupGo_eq_self : ∀ (l seen : List String), l.Nodup →
    (∀ x ∈ l, x ∉ seen) → dedupGo seen l = l := by
  intro l
  induction l with
  | nil => intro seen _ _; rfl
  | cons y ys ih =>
    intro seen hn hd
    have hy : y ∉ seen := hd y (List.mem_cons_self _ _)
    rw [dedupGo, if_neg hy]
    congr 1
    apply ih _ (List.nodup_cons.mp hn).2
    intro x hx hmem
    rcases List.mem_cons.mp hmem with rfl | h1
    · exact (List.nodup_cons.mp hn).1 hx
    · exact hd x (List.mem_cons_of_mem _ hx) h1

theorem dedupGo_congr : ∀ (l : List String) {s t : List String},
    (∀ x, x ∈ s ↔ x ∈ t) → dedupGo s l = dedupGo t l := by
  intro l
  induction l with
  | nil => intro s t _; rfl
  | cons y ys ih =>
    intro s t h
    by_cases hy : y ∈ s
    · rw [dedupGo, if_pos hy, dedupGo, if_pos ((h y).mp hy)]
      exact ih h
    · rw [dedupGo, if_neg hy, dedupGo, if_neg (fun ht => hy ((h y).mpr ht))]
      congr 1
      apply ih
      intro x
      simp [List.mem_cons, h x]

theorem dedupGo_append : ∀ (a : List String) (s b : List String),
    dedupGo s (a ++ b) = dedupGo s a ++ dedupGo (a ++ s) b := by
  intro a
  induction a with
  | nil => intro s b; simp [dedupGo]
  | cons x xs ih =>
    intro s b
    by_cases h : x ∈ s
    · rw [List.cons_append, dedupGo, if_pos h, dedupGo, if_pos h, ih]
      congr 1
      apply dedupGo_congr
      intro z
      constructor
      · intro hz; rcases List.mem_append.mp hz with h1 | h1
        · exact List.mem_append_left _ (List.mem_cons_of_mem _ h1)
        · exact List.mem_append_right _ h1
      · intro hz
        rcases List.mem_append.mp hz with h1 | h1
        · rcases List.mem_cons.mp h1 with rfl | h2
          · exact List.mem_append_right _ h
          · exact List.mem_append_left _ h2
        · exact List.mem_append_right _ h1
    · rw [List.cons_append, dedupGo, if_neg h, dedupGo, if_neg h, ih]
      rw [List.cons_append]
      congr 2
      apply dedupGo_congr
      intro z
      constructor
      · intro hz
        rcases List.mem_append.mp hz with h1 | h1
        · exact List.mem_append_left _ (List.mem_cons_of_mem _ h1)
        · rcases List.mem_cons.mp h1 with rfl | h2
          · exact List.mem_append_left _ (List.mem_cons_self _ _)
          · exact List.mem_append_right _ h2
      · intro hz
        rcases List.mem_append.mp hz with h1 | h1
        · rcases List.mem_cons.mp h1 with rfl | h2
          · exact List.mem_append_right _ (List.mem_cons_self _ _)
          · exact List.mem_append_left _ h2
        · exact List.mem_append_right _ (List.mem_cons_of_mem _ h1)

theorem dedupGo_eq_filter : ∀ (l s : List String),
    dedupGo s l = (dedupFirst l).filter (fun x => !decide (x ∈ s)) := by
  intro l
  induction l with
  | nil => intro s; rfl
  | cons y ys ih =>
    intro s
    have hun : dedupFirst (y :: ys) = y :: dedupGo [y] ys := by
      rw [dedupFirst, dedupGo, if_neg (List.not_mem_nil y)]
    by_cases h : y ∈ s
    · rw [dedupGo, if_pos h, hun, List.filter_cons]
      simp only [show (!decide (y ∈ s)) = false by simp [h], if_false]
      rw [ih s, ih [y], List.filter_filter]
      apply List.filter_congr
      intro z _
      by_cases hz : z = y
      · subst hz; simp [h]
      · simp [hz]
    · rw [dedupGo, if_neg h, hun, List.filter_cons]
      simp only [show (!decide (y ∈ s)) = true by simp [h], if_true]
      congr 1
      rw [ih (y :: s), ih [y], List.filter_filter]
      apply List.filter_congr
      intro z _
      by_cases hz : z = y
      · subst hz; simp
      · simp [hz, List.mem_cons]

theorem dedupFirst_idem (l : List String) : dedupFirst (dedupFirst l) = dedupFirst l :=
  dedupGo_eq_self _ _ (nodup_dedupGo l []) (by simp)

theorem dedupGo_of_dedupFirst_eq {a b : List String}
    (h : dedupFirst a = dedupFirst b) (s : List String) :
    dedupGo s a = dedupGo s b := by
  rw [dedupGo_eq_filter, dedupGo_eq_filter, h]

theorem dedupFirst_append_congr {a a2 b b2 : List String}
    (ha : dedupFirst a = dedupFirst a2) (hb : dedupFirst b = dedupFirst b2) :
    dedupFirst (a ++ b) = dedupFirst (a2 ++ b2) := by
  have h1 : dedupFirst (a ++ b) = dedupFirst a ++ dedupGo a b := by
    rw [dedupFirst, dedupGo_append, List.append_nil]; rfl
  have h2 : dedupFirst (a2 ++ b2) = dedupFirst a2 ++ dedupGo a2 b2 := by
    rw [dedupFirst, dedupGo_append, List.append_nil]; rfl
  rw [h1, h2, ha, dedupGo_of_dedupFirst_eq hb]
  congr 1
  apply dedupGo_congr
  intro x
  rw [← mem_dedupFirst, ha, mem_dedupFirst]

theorem dedupFirst_dedup_left (z w : List String) :
    dedupFirst (dedupFirst z ++ w) = dedupFirst (z ++ w) :=
  dedupFirst_append_congr (dedupFirst_idem z) rfl

/-- The expansion with per-level deduplication and the raw depth-first
collection agree on the visited set they produce, and their permission
lists agree up to first-seen deduplication. -/
theorem expand_collect (data : List RoleRead) :
    ∀ (keys visited : List String),
      (expandAux data keys visited).2 = (collectAux data keys visited).2 ∧
      dedupFirst (expandAux data keys visited).1 =
        dedupFirst (collectAux data keys visited).1 := by
  intro keys visited
  induction keys, visited using expandAux.induct data with
  | case1 visited =>
    rw [expandAux, collectAux]
    exact ⟨rfl, rfl⟩
  | case2 k rest visited hk ih =>
    rw [expandAux, dif_pos hk, collectAux, dif_pos hk]
    exact ih
  | case3 k rest visited hk hl ih =>
    rw [expandAux, dif_neg hk, collectAux, dif_neg hk]
    rw [hl]
    exact ih
  | case4 k rest visited hk role hl pr ih1 ih2 =>
    rw [expandAux, dif_neg hk, collectAux, dif_neg hk]
    rw [hl]
    simp only
    have hpr2 : (expandAux data role.exts (k :: visited)).2 =
        (collectAux data role.exts (k :: visited)).2 := ih1.1
    constructor
    · rw [← hpr2]
      exact ih2.1
    · rw [← hpr2]
      have hmain : dedupFirst
          (dedupGo [] (role.permissions ++ (expandAux data role.exts (k :: visited)).1) ++
            (expandAux data rest ((expandAux data role.exts (k :: visited)).2 ++ k :: visited)).1) =
          dedupFirst
          ((role.permissions ++ (collectAux data role.exts (k :: visited)).1) ++
            (collectAux data rest ((expandAux data role.exts (k :: visited)).2 ++ k :: visited)).1) := by
        rw [show dedupGo [] (role.permissions ++ (expandAux data role.exts (k :: visited)).1) =
            dedupFirst (role.permissions ++ (expandAux data role.exts (k :: visited)).1) from rfl]
        rw [dedupFirst_dedup_left]
        exact dedupFirst_append_congr (dedupFirst_append_congr rfl ih1.2) ih2.2
      rw [hmain, List.append_assoc]

/-- Revisiting a role key already in the visited set contributes nothing:
that branch of the expansion is skipped entirely. -/
theorem expandAux_revisit (data : List RoleRead) (k : String)
    (rest visited : List String) (hk : k ∈ visited) :
    expandAux data (k :: rest) visited = expandAux data rest visited := by
  rw [expandAux, dif_pos hk]

theorem expandAux_nil (data : List RoleRead) (v : List String) :
    expandAux data [] v = ([], v) := by
  rw [expandAux]

theorem getRolePermissions_unknown (data : List RoleRead) (k : String)
    (h : lookupRole data k = none) : getRolePermissions data k = [] := by
  rw [getRolePermissions, expandAux, dif_neg (List.not_mem_nil k)]
  split
  · rw [expandAux_nil]
  · next role hl2 => rw [h] at hl2; cases hl2

theorem getRolePermissions_known (data : List RoleRead) (k : String)
    (role : RoleRead) (h : lookupRole data k = some role) :
    getRolePermissions data k =
      dedupFirst (role.permissions ++ (expandAux data role.exts [k]).1) := by
  rw [getRolePermissions, expandAux, dif_neg (List.not_mem_nil k)]
  split
  · next hl2 => rw [h] at hl2; cases hl2
  · next role2 hl2 =>
    rw [h] at hl2
    injection hl2 with he
    subst he
    simp only [expandAux_nil]
    simp [dedupFirst]

theorem getRolePermissions_self_dedup (data : List RoleRead) (k : String) :
    getRolePermissions data k = dedupFirst (getRolePermissions data k) := by
  cases hl : lookupRole data k with
  | none => rw [getRolePermissions_unknown data k hl]; rfl
  | some role =>
    rw [getRolePermissions_known data k role hl]
    rw [dedupFirst_idem]

/-- C1. For every role catalog and starting key the expansion terminates
(the function is total by well-founded recursion on the unvisited part of
the catalog) and: the result has no duplicate permission string; it is the
first-seen-order deduplication of the raw depth-first permission stream
(own declared permissions first, then each `extends` parent expansion in
declaration order); a key absent from the catalog contributes no
permissions and no error; and a key reached a second time within one
top-level expansion contributes nothing further. -/
theorem expandPermissions_spec (data : List RoleRead) (k : String) :
    (getRolePermissions data k).Nodup
    ∧ getRolePermissions data k = dedupFirst ((collectAux data [k] []).1)
    ∧ (lookupRole data k = none → getRolePermissions data k = [])
    ∧ (∀ role, lookupRole data k = some role →
        getRolePermissions data k =
          dedupFirst (role.permissions ++ (expandAux data role.exts [k]).1))
    ∧ (∀ (k2 : String) (rest visited : List String), k2 ∈ visited →
        expandAux data (k2 :: rest) visited = expandAux data rest visited) := by
  refine ⟨?_, ?_, getRolePermissions_unknown data k,
    fun role h => getRolePermissions_known data k role h,
    fun k2 rest visited h => expandAux_revisit data k2 rest visited h⟩
  · rw [getRolePermissions_self_dedup]
    exact nodup_dedupGo _ _
  · rw [getRolePermissions_self_dedup, getRolePermissions]
    exact (expand_collect data [k] []).2

/-- Concrete witness for C1, on the cyclic two-role catalog of the spec
scenario: role a has permission x:read and extends b, and b extends a. -/
def cycleCat : List RoleRead := [⟨"a", ["x:read"], ["b"]⟩, ⟨"b", [], ["a"]⟩]

theorem expandPermissions_spec_witness :
    (getRolePermissions cycleCat "a").Nodup
    ∧ getRolePermissions cycleCat "a" = ["x:read"]
    ∧ lookupRole cycleCat "ghost" = none
    ∧ getRolePermissions cycleCat "ghost" = []
    ∧ (("a" : String) ∈ ["a"] ∧
        expandAux cycleCat ["a", "b"] ["a"] = expandAux cycleCat ["b"] ["a"]) := by
  refine ⟨(expandPermissions_spec cycleCat "a").1, ?_, by decide,
    (expandPermissions_spec cycleCat "ghost").2.2.1 (by decide),
    by decide, (expandPermissions_spec cycleCat "a").2.2.2.2 "a" ["b"] ["a"] (by decide)⟩
  simp [getRolePermissions, expandAux, cycleCat, lookupRole, dedupGo]

/-- Debug evidence of a decision (`models.CheckDebugInfo`), restricted to
the fields the evaluator writes. -/
structure CheckDebugInfo where
  matchedRoles : List String
  matchedPermissions : List String
deriving Repr, DecidableEq

/-- A decision (`models.CheckResponse`). In the Go struct `Debug` is a
nilable pointer, modelled as an `Option`. -/
structure CheckResponse where
  allowed : Bool
  reason : String
  debug : Option CheckDebugInfo
deriving Repr, DecidableEq

/-- Client configuration fields consumed by the embedded operations
(`config.Config`). -/
structure Config where
  throwOnError : Bool
  retryAttempts : Nat
deriving Repr, DecidableEq

/-- Default retry attempt count (`config.DefaultRetryAttempts`). -/
def DefaultRetryAttempts : Nat := 3

/-- Outcomes of the three remote fetches one `CheckWithDetails` call can
perform, supplied as oracles: `ensureScope`, the role-assignment list
fetch, and the role-catalog fetch. An `Except.error` carries the Go error
text (the result of `err.Error()`). -/
structure FetchEnv where
  scopeRes : Except String Unit
  assignRes : Except String (List RoleAssignmentRead)
  rolesRes : Except String (List RoleRead)

/-- The permission match test in step 4 of `CheckWithDetails`: exact
required string, type wildcard, or universal wildcard, each compared as a
literal string. -/
def permMatches (perm requiredPermission resourceType : String) : Bool :=
  perm == requiredPermission || perm == (resourceType ++ ":*") || perm == "*:*"

/-- Embedding of `Client.CheckWithDetails`: ensure scope, build the
required permission string, fetch assignments (an error degrades to a
negative decision unless `ThrowOnError`), short-circuit on zero
assignments, fetch the role catalog (same error policy), then test every
distinct assigned role key against the required permission, recording the
required string once per matched role. Returns the outcome together with
a Bool flag recording whether the role-catalog fetch was reached. Go map
iteration over the distinct role keys is modelled as first-seen order;
only order-insensitive facts are proved about matched lists. -/
def checkWithDetails (cfg : Config) (env : FetchEnv)
    (userKey action resourceType : String) : Except String CheckResponse × Bool :=
  match env.scopeRes with
  | .error e => (.error e, false)
  | .ok _ =>
    let requiredPermission := resourceType ++ ":" ++ action
    match env.assignRes with
    | .error e =>
      if cfg.throwOnError then (.error e, false)
      else (.ok ⟨false, "Error fetching role assignments: " ++ e, none⟩, false)
    | .ok assignments =>
      if assignments.length = 0 then
        (.ok ⟨false, "User " ++ userKey ++ " has no role assignments", none⟩, false)
      else
        let roleKeys := dedupFirst (assignments.map (fun a => a.role))
        match env.rolesRes with
        | .error e =>
          if cfg.throwOnError then (.error e, true)
          else (.ok ⟨false, "Error fetching roles: " ++ e, none⟩, true)
        | .ok data =>
          let matchedRoles := roleKeys.filter
            (fun rk => (getRolePermissions data rk).any
              (fun p => permMatches p requiredPermission resourceType))
          let matchedPermissions := matchedRoles.map (fun _ => requiredPermission)
          let allowed := decide (0 < matchedRoles.length)
          let reason :=
            if allowed then "Granted by role(s): " ++ String.intercalate ", " matchedRoles
            else "No role grants permission " ++ requiredPermission
          (.ok ⟨allowed, reason, some ⟨matchedRoles, matchedPermissions⟩⟩, true)

def cfgStrict : Config := ⟨true, 3⟩

def cfgLenient : Config := ⟨false, 3⟩

/-- C3. If the role-assignment fetch or the role-catalog fetch fails during
an evaluation then: with the client-wide `ThrowOnError` flag set,
`CheckWithDetails` returns that error and no decision; with the flag unset
it returns `allowed = false` with the underlying error text embedded in
the reason (after the fixed prefix), and no error. -/
theorem checkWithDetails_fetchError_policy (cfg : Config) (env : FetchEnv)
    (u act rt e : String) :
    (env.scopeRes = Except.ok () → env.assignRes = Except.error e →
      ((cfg.throwOnError = true →
          checkWithDetails cfg env u act rt = (.error e, false)) ∧
       (cfg.throwOnError = false →
          checkWithDetails cfg env u act rt =
            (.ok ⟨false, "Error fetching role assignments: " ++ e, none⟩, false))))
    ∧ (∀ assignments, env.scopeRes = Except.ok () →
        env.assignRes = Except.ok assignments → assignments ≠ [] →
        env.rolesRes = Except.error e →
        ((cfg.throwOnError = true →
            checkWithDetails cfg env u act rt = (.error e, true)) ∧
         (cfg.throwOnError = false →
            checkWithDetails cfg env u act rt =
              (.ok ⟨false, "Error fetching roles: " ++ e, none⟩, true)))) := by
  constructor
  · intro hs ha
    constructor
    · intro ht
      simp [checkWithDetails, hs, ha, ht]
    · intro ht
      simp [checkWithDetails, hs, ha, ht]
  · intro assignments hs ha hne hr
    have hlen : ¬ assignments.length = 0 := by
      simpa [List.length_eq_zero] using hne
    constructor
    · intro ht
      simp [checkWithDetails, hs, ha, hr, ht, hlen]
    · intro ht
      simp [checkWithDetails, hs, ha, hr, ht, hlen]

theorem checkWithDetails_fetchError_policy_witness :
    (checkWithDetails cfgStrict ⟨.ok (), .error "boom", .ok []⟩ "u" "read" "doc" =
      (.error "boom", false))
    ∧ (checkWithDetails cfgLenient ⟨.ok (), .error "boom", .ok []⟩ "u" "read" "doc" =
      (.ok ⟨false, "Error fetching role assignments: " ++ "boom", none⟩, false))
    ∧ (checkWithDetails cfgStrict ⟨.ok (), .ok [⟨"u", "r", ""⟩], .error "down"⟩
        "u" "read" "doc" = (.error "down", true))
    ∧ (checkWithDetails cfgLenient ⟨.ok (), .ok [⟨"u", "r", ""⟩], .error "down"⟩
        "u" "read" "doc" =
        (.ok ⟨false, "Error fetching roles: " ++ "down", none⟩, true)) :=
  ⟨((checkWithDetails_fetchError_policy cfgStrict _ "u" "read" "doc" "boom").1
      rfl rfl).1 rfl,
   ((checkWithDetails_fetchError_policy cfgLenient _ "u" "read" "doc" "boom").1
      rfl rfl).2 rfl,
   ((checkWithDetails_fetchError_policy cfgStrict _ "u" "read" "doc" "down").2
      [⟨"u", "r", ""⟩] rfl rfl (by decide) rfl).1 rfl,
   ((checkWithDetails_fetchError_policy cfgLenient _ "u" "read" "doc" "down").2
      [⟨"u", "r", ""⟩] rfl rfl (by decide) rfl).2 rfl⟩

/-- C7. A successful assignment fetch returning zero assignments yields a
negative decision whose reason embeds the text "no role assignments", with
no error, for either value of the strict flag, and the role catalog fetch
is never reached (the flag is `false` and the outcome does not depend on
the catalog oracle). -/
theorem checkWithDetails_noAssignments (cfg : Config) (env : FetchEnv)
    (u act rt : String) (hs : env.scopeRes = Except.ok ())
    (ha : env.assignRes = Except.ok []) :
    checkWithDetails cfg env u act rt =
      (.ok ⟨false, "User " ++ u ++ " has no role assignments", none⟩, false)
    ∧ "User " ++ u ++ " has no role assignments" =
        ("User " ++ u ++ " has ") ++ "no role assignments"
    ∧ (∀ r2, checkWithDetails cfg ⟨env.scopeRes, env.assignRes, r2⟩ u act rt =
        checkWithDetails cfg env u act rt) := by
  refine ⟨by simp [checkWithDetails, hs, ha], ?_, ?_⟩
  · rw [String.append_assoc ("User " ++ u) " has " "no role assignments"]
    congr 1
  · intro r2
    simp [checkWithDetails, hs, ha]

theorem checkWithDetails_noAssignments_witness :
    checkWithDetails cfgStrict ⟨.ok (), .ok [], .error "down"⟩ "alice" "read" "doc" =
      (.ok ⟨false, "User " ++ "alice" ++ " has no role assignments", none⟩, false)
    ∧ checkWithDetails cfgLenient ⟨.ok (), .ok [], .ok []⟩ "alice" "read" "doc" =
      (.ok ⟨false, "User " ++ "alice" ++ " has no role assignments", none⟩, false) :=
  ⟨(checkWithDetails_noAssignments cfgStrict ⟨.ok (), .ok [], .error "down"⟩
      "alice" "read" "doc" rfl rfl).1,
   (checkWithDetails_noAssignments cfgLenient ⟨.ok (), .ok [], .ok []⟩
      "alice" "read" "doc" rfl rfl).1⟩

/-- C10. In the success path the decision debug info always records the
required string itself (never the wildcard string that produced a match),
with exactly one recorded entry per matched role: every entry of
`matchedPermissions` equals the required string, the two evidence lists
have equal length, the matched roles are duplicate-free, and a role key is
matched exactly when it is assigned and its expansion matches. -/
theorem matchedPermissions_spec (cfg : Config) (env : FetchEnv)
    (u act rt : String) (assignments : List RoleAssignmentRead)
    (data : List RoleRead) (hs : env.scopeRes = Except.ok ())
    (ha : env.assignRes = Except.ok assignments) (hne : assignments ≠ [])
    (hr : env.rolesRes = Except.ok data) :
    ∃ resp d, checkWithDetails cfg env u act rt = (.ok resp, true) ∧
      resp.debug = some d ∧
      (∀ p ∈ d.matchedPermissions, p = rt ++ ":" ++ act) ∧
      d.matchedPermissions.length = d.matchedRoles.length ∧
      d.matchedRoles.Nodup ∧
      (∀ k, k ∈ d.matchedRoles ↔
        (k ∈ assignments.map (fun a2 => a2.role) ∧
          (getRolePermissions data k).any
            (fun p => permMatches p (rt ++ ":" ++ act) rt) = true)) := by
  have hlen : ¬ assignments.length = 0 := by
    simpa [List.length_eq_zero] using hne
  simp only [checkWithDetails, hs, ha, hr, if_neg hlen]
  refine ⟨_, _, rfl, rfl, ?_, ?_, ?_, ?_⟩
  · intro p hp
    rcases List.mem_map.mp hp with ⟨k, _, hk⟩
    exact hk.symm
  · exact List.length_map _ _
  · exact List.Nodup.filter _ (nodup_dedupGo _ _)
  · intro k
    rw [List.mem_filter]
    constructor
    · rintro ⟨hk, hmatch⟩
      exact ⟨mem_dedupFirst.mp hk, hmatch⟩
    · rintro ⟨hk, hmatch⟩
      exact ⟨mem_dedupFirst.mpr hk, hmatch⟩

theorem matchedPermissions_spec_witness :
    (∃ resp d,
      checkWithDetails cfgLenient
          ⟨.ok (), .ok [⟨"u", "admin", ""⟩], .ok [⟨"admin", ["*:*"], []⟩]⟩
          "u" "read" "doc" = (.ok resp, true) ∧
      resp.debug = some d ∧
      (∀ p ∈ d.matchedPermissions, p = "doc" ++ ":" ++ "read") ∧
      d.matchedPermissions.length = d.matchedRoles.length ∧
      d.matchedRoles.Nodup ∧
      (∀ k, k ∈ d.matchedRoles ↔
        (k ∈ [⟨"u", "admin", ""⟩].map (fun a2 : RoleAssignmentRead => a2.role) ∧
          (getRolePermissions [⟨"admin", ["*:*"], []⟩] k).any
            (fun p => permMatches p ("doc" ++ ":" ++ "read") "doc") = true)))
    ∧ (checkWithDetails cfgLenient
          ⟨.ok (), .ok [⟨"u", "admin", ""⟩], .ok [⟨"admin", ["*:*"], []⟩]⟩
          "u" "read" "doc").1 =
        .ok ⟨true, "Granted by role(s): admin", some ⟨["admin"], ["doc:read"]⟩⟩ := by
  constructor
  · exact matchedPermissions_spec cfgLenient
      ⟨.ok (), .ok [⟨"u", "admin", ""⟩], .ok [⟨"admin", ["*:*"], []⟩]⟩
      "u" "read" "doc" [⟨"u", "admin", ""⟩] [⟨"admin", ["*:*"], []⟩]
      rfl rfl (by decide) rfl
  · simp only [checkWithDetails]
    simp [dedupFirst, dedupGo, getRolePermissions, expandAux, lookupRole, permMatches,
      String.intercalate]
    decide

/-- A token is colon-free when the character ':' does not occur in it. -/
def colonFree (s : String) : Prop := ':' ∉ s.data

theorem colon_split (a : List Char) : ∀ (b : List Char), ':' ∉ a → ':' ∉ b →
    ∀ (x y : List Char), a ++ ':' :: x = b ++ ':' :: y → a = b ∧ x = y := by
  induction a with
  | nil =>
    intro b _ hb x y h
    cases b with
    | nil => simpa using h
    | cons c b2 =>
      simp only [List.nil_append, List.cons_append, List.cons.injEq] at h
      exact absurd (by rw [h.1]; exact List.mem_cons_self _ _) hb
  | cons c a2 ih =>
    intro b ha hb x y h
    cases b with
    | nil =>
      simp only [List.cons_append, List.nil_append, List.cons.injEq] at h
      exact absurd (by rw [← h.1]; exact List.mem_cons_self _ _) ha
    | cons d b2 =>
      simp only [List.cons_append, List.cons.injEq] at h
      obtain ⟨hcd, h2⟩ := h
      have ha2 : ':' ∉ a2 := fun hm => ha (List.mem_cons_of_mem _ hm)
      have hb2 : ':' ∉ b2 := fun hm => hb (List.mem_cons_of_mem _ hm)
      obtain ⟨hab, hxy⟩ := ih b2 ha2 hb2 x y h2
      exact ⟨by rw [hcd, hab], hxy⟩

theorem string_data_append (s t : String) : (s ++ t).data = s.data ++ t.data := rfl

theorem string_eq_of_data {s t : String} (h : s.data = t.data) : s = t := by
  cases s
  cases t
  exact congrArg String.mk h

/-- A type-scoped wildcard for a colon-free type other than the literal
star matches no required permission built from a DIFFERENT colon-free
resource type and a colon-free action. -/
theorem typeWildcard_no_cross (t rt act : String) (ht : colonFree t)
    (hrt : colonFree rt) (hact : colonFree act) (hstar : t ≠ "*") (hne : t ≠ rt) :
    permMatches (t ++ ":*") (rt ++ ":" ++ act) rt = false := by
  have e1 : ¬ (t ++ ":*") = (rt ++ ":" ++ act) := by
    intro h
    have h2 := congrArg String.data h
    simp only [string_data_append] at h2
    have hd : t.data ++ ':' :: ['*'] = rt.data ++ ':' :: act.data := by
      simpa [List.append_assoc] using h2
    exact hne (string_eq_of_data
      (colon_split t.data rt.data ht hrt ['*'] act.data hd).1)
  have e2 : ¬ (t ++ ":*") = (rt ++ ":*") := by
    intro h
    have h2 := congrArg String.data h
    simp only [string_data_append] at h2
    have hd : t.data ++ ':' :: ['*'] = rt.data ++ ':' :: ['*'] := by
      simpa using h2
    exact hne (string_eq_of_data
      (colon_split t.data rt.data ht hrt ['*'] ['*'] hd).1)
  have e3 : ¬ (t ++ ":*") = "*:*" := by
    intro h
    have h2 := congrArg String.data h
    simp only [string_data_append] at h2
    have hd : t.data ++ ':' :: ['*'] = ['*'] ++ ':' :: ['*'] := by
      simpa using h2
    have h3 := (colon_split t.data ['*'] ht (by decide) ['*'] ['*'] hd).1
    exact hstar (string_eq_of_data (by simpa using h3))
  simp [permMatches, e1, e2, e3]

theorem filter_roleKeys_pos (assignments : List RoleAssignmentRead)
    (P : String → Bool) :
    decide (0 <
      ((dedupFirst (assignments.map (fun a2 => a2.role))).filter P).length) = true
      ↔ ∃ a2 ∈ assignments, P a2.role = true := by
  rw [decide_eq_true_eq]
  constructor
  · intro hpos
    obtain ⟨k, hk⟩ := List.exists_mem_of_length_pos hpos
    obtain ⟨hkRK, hkP⟩ := List.mem_filter.mp hk
    obtain ⟨a2, ha2, hrole⟩ := List.mem_map.mp (mem_dedupFirst.mp hkRK)
    exact ⟨a2, ha2, by rw [hrole]; exact hkP⟩
  · rintro ⟨a2, ha2, hP⟩
    apply List.length_pos_of_mem
    exact List.mem_filter.mpr
      ⟨mem_dedupFirst.mpr (List.mem_map.mpr ⟨a2, ha2, rfl⟩), hP⟩

/-- C2 amended. With at least one assignment and both fetches successful,
the decision is allowed exactly when some assigned role expands to a
permission matching the required string via the exact, type-wildcard, or
universal-wildcard comparison; a role carrying the universal wildcard, or
the type wildcard of the checked resource type, always grants. The
no-cross-type guarantee of the type wildcard holds for colon-free tokens
with the wildcard type not itself the star (without that proviso it fails,
see the counterexample: permission strings are flat literals, so a
wildcard for a type containing ':' also reads as an exact permission of a
shorter type). -/
theorem checkWithDetails_match_amended (cfg : Config) (env : FetchEnv)
    (u act rt : String) (assignments : List RoleAssignmentRead)
    (data : List RoleRead) (hs : env.scopeRes = Except.ok ())
    (ha : env.assignRes = Except.ok assignments) (hne : assignments ≠ [])
    (hr : env.rolesRes = Except.ok data) :
    ∃ resp, checkWithDetails cfg env u act rt = (.ok resp, true) ∧
      (resp.allowed = true ↔ ∃ a2 ∈ assignments,
        (getRolePermissions data a2.role).any
          (fun p => permMatches p (rt ++ ":" ++ act) rt) = true) ∧
      ((∃ a2 ∈ assignments, "*:*" ∈ getRolePermissions data a2.role) →
        resp.allowed = true) ∧
      ((∃ a2 ∈ assignments, (rt ++ ":*") ∈ getRolePermissions data a2.role) →
        resp.allowed = true) ∧
      ((∀ a2 ∈ assignments, ∀ p ∈ getRolePermissions data a2.role,
          ∃ t, p = t ++ ":*" ∧ colonFree t ∧ t ≠ "*" ∧ t ≠ rt) →
        colonFree rt → colonFree act → resp.allowed = false) := by
  have hlen : ¬ assignments.length = 0 := by
    simpa [List.length_eq_zero] using hne
  simp only [checkWithDetails, hs, ha, hr, if_neg hlen]
  refine ⟨_, rfl, ?_, ?_, ?_, ?_⟩
  · exact filter_roleKeys_pos assignments _
  · rintro ⟨a2, ha2, hmem⟩
    apply (filter_roleKeys_pos assignments _).mpr
    refine ⟨a2, ha2, ?_⟩
    rw [List.any_eq_true]
    exact ⟨"*:*", hmem, by simp [permMatches]⟩
  · rintro ⟨a2, ha2, hmem⟩
    apply (filter_roleKeys_pos assignments _).mpr
    refine ⟨a2, ha2, ?_⟩
    rw [List.any_eq_true]
    exact ⟨rt ++ ":*", hmem, by simp [permMatches]⟩
  · intro hall hcrt hcact
    cases hd : decide (0 <
        ((dedupFirst (assignments.map (fun a2 => a2.role))).filter
          (fun rk => (getRolePermissions data rk).any
            (fun p => permMatches p (rt ++ ":" ++ act) rt))).length) with
    | false => rfl
    | true =>
      obtain ⟨a2, ha2, hP⟩ := (filter_roleKeys_pos assignments _).mp hd
      rw [List.any_eq_true] at hP
      obtain ⟨p, hpmem, hpm⟩ := hP
      obtain ⟨t, rfl, ht, hstar, htne⟩ := hall a2 ha2 p hpmem
      rw [typeWildcard_no_cross t rt act ht hcrt hcact hstar htne] at hpm
      cases hpm

theorem checkWithDetails_match_amended_witness :
    ∃ resp, checkWithDetails cfgLenient
        ⟨.ok (), .ok [⟨"u", "admin", ""⟩], .ok [⟨"admin", ["*:*"], []⟩]⟩
        "u" "write" "doc" = (.ok resp, true) ∧
      (resp.allowed = true ↔ ∃ a2 ∈ [(⟨"u", "admin", ""⟩ : RoleAssignmentRead)],
        (getRolePermissions [⟨"admin", ["*:*"], []⟩] a2.role).any
          (fun p => permMatches p ("doc" ++ ":" ++ "write") "doc") = true) ∧
      ((∃ a2 ∈ [(⟨"u", "admin", ""⟩ : RoleAssignmentRead)],
          "*:*" ∈ getRolePermissions [⟨"admin", ["*:*"], []⟩] a2.role) →
        resp.allowed = true) ∧
      ((∃ a2 ∈ [(⟨"u", "admin", ""⟩ : RoleAssignmentRead)],
          ("doc" ++ ":*") ∈ getRolePermissions [⟨"admin", ["*:*"], []⟩] a2.role) →
        resp.allowed = true) ∧
      ((∀ a2 ∈ [(⟨"u", "admin", ""⟩ : RoleAssignmentRead)],
          ∀ p ∈ getRolePermissions [⟨"admin", ["*:*"], []⟩] a2.role,
          ∃ t, p = t ++ ":*" ∧ colonFree t ∧ t ≠ "*" ∧ t ≠ "doc") →
        colonFree "doc" → colonFree "write" → resp.allowed = false) :=
  checkWithDetails_match_amended cfgLenient
    ⟨.ok (), .ok [⟨"u", "admin", ""⟩], .ok [⟨"admin", ["*:*"], []⟩]⟩
    "u" "write" "doc" [⟨"u", "admin", ""⟩] [⟨"admin", ["*:*"], []⟩]
    rfl rfl (by decide) rfl

/-- C2 counterexample. The claim asserts the type wildcard matches no
action on a DIFFERENT resource type, unconditionally. Concretely false:
a role whose only permission is the type wildcard for type "a:b" (the flat
string "a:b:*") grants action "b:*" on the different resource type "a",
because the required permission is built by plain concatenation and
compared as a flat literal, making the two coincide. -/
theorem checkWithDetails_match_cex :
    getRolePermissions [⟨"r", ["a:b:*"], []⟩] "r" = ["a:b" ++ ":*"]
    ∧ ("a:b" : String) ≠ "a"
    ∧ (checkWithDetails cfgLenient
        ⟨.ok (), .ok [⟨"u", "r", ""⟩], .ok [⟨"r", ["a:b:*"], []⟩]⟩
        "u" "b:*" "a").1 =
      .ok ⟨true, "Granted by role(s): r", some ⟨["r"], ["a" ++ ":" ++ "b:*"]⟩⟩ := by
  have h1 : getRolePermissions [⟨"r", ["a:b:*"], []⟩] "r" = ["a:b:*"] := by
    simp [getRolePermissions, expandAux, lookupRole, dedupGo]
  refine ⟨by rw [h1]; decide, by decide, ?_⟩
  simp only [checkWithDetails]
  simp [dedupFirst, dedupGo, List.filter, h1, permMatches, String.intercalate,
    String.intercalate.go]

/-- A dynamic Go interface value as it can appear in the `User` and
`Resource` fields of `models.CheckRequest`: a string, a JSON-style object
(a Go map from string to interface), or any other dynamic type. -/
inductive DynVal where
  | str (s : String)
  | obj (fields : List (String × DynVal))
  | other
deriving Repr

/-- A bulk check item (`models.CheckRequest`), restricted to the fields
`BulkCheck` reads. -/
structure CheckRequest where
  user : DynVal
  action : String
  resource : DynVal
  tenant : String

/-- A resource reference (`enforcement.Resource`) as assembled by
`BulkCheck`; Go zero values are empty strings. -/
structure ResourceModel where
  type : String
  key : String
  tenant : String
deriving Repr, DecidableEq

/-- Go map lookup on the decoded object fields (keys are unique in a Go
map; first match). -/
def lookupField : List (String × DynVal) → String → Option DynVal
  | [], _ => none
  | (k2, v) :: rest, k => if k2 = k then some v else lookupField rest k

/-- The checked type assertion `value.(string)` with the `, ok` form:
a non-string yields no value and the target field is left as is. -/
def asString : Option DynVal → Option String
  | some (.str s) => some s
  | _ => none

/-- The `switch check.Resource.(type)` block of `BulkCheck`: a plain
string is the resource type; an object contributes the `type`, `key` and
`tenant` fields when they are strings; anything else leaves the zero
resource. -/
def parseResource : DynVal → ResourceModel
  | .str r => ⟨r, "", ""⟩
  | .obj fields =>
    let t := (asString (lookupField fields "type")).getD ""
    let k := (asString (lookupField fields "key")).getD ""
    let tn := (asString (lookupField fields "tenant")).getD ""
    ⟨t, k, tn⟩
  | .other => ⟨"", "", ""⟩

/-- The resource one bulk item is checked against, after the
`check.Tenant` override. -/
def itemResource (c : CheckRequest) : ResourceModel :=
  let r0 := parseResource c.resource
  if c.tenant ≠ "" then { r0 with tenant := c.tenant } else r0

/-- One item of a bulk response (`models.BulkCheckResult`). -/
structure BulkCheckResult where
  request : CheckRequest
  response : CheckResponse

/-- Evaluation of one bulk item whose user key assertion succeeded:
`CheckWithDetails` is called and an error outcome is captured as a
negative decision carrying the error text, without aborting the batch. -/
def evalOne (cfg : Config) (env : FetchEnv) (userKey : String)
    (c : CheckRequest) : BulkCheckResult :=
  match (checkWithDetails cfg env userKey c.action (itemResource c).type).1 with
  | .error e => ⟨c, ⟨false, e, none⟩⟩
  | .ok resp => ⟨c, resp⟩

/-- Embedding of `Client.BulkCheck`. Items are evaluated sequentially and
independently; the fetches of item number `i` are oracled by `envs i`.
The Go code reads the user key with the UNCHECKED type assertion
`check.User.(string)`, which panics when the dynamic type is not a
string; the panic (the call never returning a response) is modelled as
`none`. -/
def bulkCheckAux (cfg : Config) (envs : Nat → FetchEnv) :
    Nat → List CheckRequest → Option (List BulkCheckResult)
  | _, [] => some []
  | i, c :: rest =>
    match c.user with
    | .str u =>
      match bulkCheckAux cfg envs (i + 1) rest with
      | some rs => some (evalOne cfg (envs i) u c :: rs)
      | none => none
    | _ => none

/-- Top-level `Client.BulkCheck` over a batch, starting at item 0. -/
def bulkCheck (cfg : Config) (envs : Nat → FetchEnv)
    (checks : List CheckRequest) : Option (List BulkCheckResult) :=
  bulkCheckAux cfg envs 0 checks

theorem bulkCheckAux_spec (cfg : Config) (envs : Nat → FetchEnv) :
    ∀ (checks : List CheckRequest) (i : Nat),
      (∀ c ∈ checks, ∃ s, c.user = DynVal.str s) →
      ∃ rs, bulkCheckAux cfg envs i checks = some rs ∧
        rs.length = checks.length ∧
        (∀ j u c, checks[j]? = some c → c.user = DynVal.str u →
          rs[j]? = some (evalOne cfg (envs (i + j)) u c)) := by
  intro checks
  induction checks with
  | nil =>
    intro i _
    refine ⟨[], rfl, rfl, ?_⟩
    intro j u c hc
    simp at hc
  | cons c0 rest ih =>
    intro i h
    obtain ⟨s0, hs0⟩ := h c0 (List.mem_cons_self _ _)
    obtain ⟨rs, hrs, hlen, hidx⟩ :=
      ih (i + 1) (fun c hc => h c (List.mem_cons_of_mem _ hc))
    refine ⟨evalOne cfg (envs i) s0 c0 :: rs, ?_, by simp [hlen], ?_⟩
    · rw [bulkCheckAux, hs0, hrs]
    · intro j u c hc hu
      cases j with
      | zero =>
        simp only [List.getElem?_cons_zero, Option.some.injEq] at hc
        subst hc
        rw [hs0] at hu
        injection hu with hus
        simp [hus]
      | succ j2 =>
        simp only [List.getElem?_cons_succ] at hc
        have := hidx j2 u c hc hu
        have harith : i + 1 + j2 = i + (j2 + 1) := by omega
        rw [harith] at this
        simpa using this

/-- C5 amended. For a batch whose every item carries a string-typed User
field, `BulkCheck` returns exactly one result per input item, in input
order, each item evaluated independently from its own fetch oracle; an
item whose evaluation returns an error yields a negative decision whose
reason is the error text, other items are unaffected, and the batch
returns no error. (Without the string-User proviso the claim fails: see
the counterexample, the unchecked `check.User.(string)` assertion
panics.) -/
theorem bulkCheck_batch_amended (cfg : Config) (envs : Nat → FetchEnv)
    (checks : List CheckRequest)
    (h : ∀ c ∈ checks, ∃ s, c.user = DynVal.str s) :
    ∃ rs, bulkCheck cfg envs checks = some rs ∧
      rs.length = checks.length ∧
      (∀ i u c, checks[i]? = some c → c.user = DynVal.str u →
        rs[i]? = some (evalOne cfg (envs i) u c)) ∧
      (∀ i u c e, checks[i]? = some c → c.user = DynVal.str u →
        (checkWithDetails cfg (envs i) u c.action (itemResource c).type).1 =
          Except.error e →
        rs[i]? = some ⟨c, ⟨false, e, none⟩⟩) := by
  obtain ⟨rs, hrs, hlen, hidx⟩ := bulkCheckAux_spec cfg envs checks 0 h
  refine ⟨rs, hrs, hlen, ?_, ?_⟩
  · intro i u c hc hu
    have := hidx i u c hc hu
    simpa using this
  · intro i u c e hc hu herr
    have := hidx i u c hc hu
    simp only [Nat.zero_add] at this
    rw [this, evalOne, herr]

def wEnvs : Nat → FetchEnv := fun i =>
  if i = 1 then ⟨.ok (), .error "net down", .ok []⟩
  else ⟨.ok (), .ok [⟨"u", "admin", ""⟩], .ok [⟨"admin", ["*:*"], []⟩]⟩

def wChecks : List CheckRequest :=
  [⟨.str "u", "read", .str "doc", ""⟩,
   ⟨.str "u", "read", .str "doc", ""⟩,
   ⟨.str "u", "write", .str "doc", ""⟩]

theorem bulkCheck_batch_amended_witness :
    ∃ rs, bulkCheck cfgLenient wEnvs wChecks = some rs ∧
      rs.length = wChecks.length ∧
      (∀ i u c, wChecks[i]? = some c → c.user = DynVal.str u →
        rs[i]? = some (evalOne cfgLenient (wEnvs i) u c)) ∧
      (∀ i u c e, wChecks[i]? = some c → c.user = DynVal.str u →
        (checkWithDetails cfgLenient (wEnvs i) u c.action (itemResource c).type).1 =
          Except.error e →
        rs[i]? = some ⟨c, ⟨false, e, none⟩⟩) :=
  bulkCheck_batch_amended cfgLenient wEnvs wChecks (by
    intro c hc
    simp only [wChecks, List.mem_cons, List.not_mem_nil, or_false] at hc
    rcases hc with rfl | rfl | rfl <;> exact ⟨_, rfl⟩)

/-- C5 counterexample. A batch of one check whose User field is not a
string makes `BulkCheck` hit the unchecked assertion `check.User.(string)`
and panic instead of returning one result per item; the panic (the call
never returning a response) is the `none` outcome of the model. -/
theorem bulkCheck_batch_cex :
    bulkCheck cfgLenient (fun _ => ⟨.ok (), .ok [], .ok []⟩)
      [⟨DynVal.other, "read", DynVal.str "doc", ""⟩] = none
    ∧ ([⟨DynVal.other, "read", DynVal.str "doc", ""⟩] :
        List CheckRequest).length = 1 :=
  ⟨rfl, rfl⟩

/-- C9 counterexample. The evaluation entry point `BulkCheck` panics on a
`CheckRequest.User` of an unexpected dynamic type (here an object): the
unchecked assertion `check.User.(string)` aborts the call, so not every
input yields a decision or a typed error. -/
theorem evaluation_noPanic_cex :
    bulkCheck cfgStrict (fun _ => ⟨.ok (), .ok [], .ok []⟩)
      [⟨DynVal.obj [("key", DynVal.str "u")], "write", DynVal.str "doc", ""⟩]
      = none :=
  rfl

/-- C9 amended. `CheckWithDetails` always yields a well-formed decision or
a typed error, for every fetch outcome — in particular a failing
role-catalog fetch (which is what a malformed catalog field produces: the
JSON decode error surfaces as a fetch error) takes the error-policy path
rather than panicking; a Resource field of unexpected dynamic type is
treated as the absent (zero) resource; and `BulkCheck` returns a response
(never panics) provided every item User field is a string. Without that
proviso the unchecked user assertion panics (see the counterexample). -/
theorem evaluation_noPanic_amended (cfg : Config) (envs : Nat → FetchEnv)
    (checks : List CheckRequest) (env : FetchEnv) (u act rt : String) :
    ((∀ c ∈ checks, ∃ s, c.user = DynVal.str s) →
      (bulkCheck cfg envs checks).isSome = true)
    ∧ ((∃ e, (checkWithDetails cfg env u act rt).1 = Except.error e) ∨
       (∃ resp, (checkWithDetails cfg env u act rt).1 = Except.ok resp))
    ∧ parseResource DynVal.other = ⟨"", "", ""⟩ := by
  refine ⟨?_, ?_, rfl⟩
  · intro h
    obtain ⟨rs, hrs, -⟩ := bulkCheckAux_spec cfg envs checks 0 h
    rw [bulkCheck, hrs]
    rfl
  · cases hres : (checkWithDetails cfg env u act rt).1 with
    | error e => exact Or.inl ⟨e, rfl⟩
    | ok resp => exact Or.inr ⟨resp, rfl⟩

theorem evaluation_noPanic_amended_witness :
    (bulkCheck cfgStrict wEnvs wChecks).isSome = true
    ∧ ((∃ e, (checkWithDetails cfgStrict (wEnvs 1) "u" "read" "doc").1 =
          Except.error e) ∨
       (∃ resp, (checkWithDetails cfgStrict (wEnvs 1) "u" "read" "doc").1 =
          Except.ok resp))
    ∧ parseResource DynVal.other = ⟨"", "", ""⟩ :=
  ⟨(evaluation_noPanic_amended cfgStrict wEnvs wChecks (wEnvs 1) "u" "read" "doc").1
    (by
      intro c hc
      simp only [wChecks, List.mem_cons, List.not_mem_nil, or_false] at hc
      rcases hc with rfl | rfl | rfl <;> exact ⟨_, rfl⟩),
   (evaluation_noPanic_amended cfgStrict wEnvs wChecks (wEnvs 1) "u" "read" "doc").2.1,
   (evaluation_noPanic_amended cfgStrict wEnvs wChecks (wEnvs 1) "u" "read" "doc").2.2⟩

/-- Outcome of one `doRequest` attempt that failed: either an error that
decoded into a structured `PermisError` (carrying message, machine code
and HTTP status), or any other (network-level) error. -/
inductive DoErr where
  | permis (message code : String) (statusCode : Nat)
  | network (msg : String)
deriving Repr, DecidableEq

/-- The retry classification of `BaseClient.Request`: a structured error
with status in the client-error range 400..499 is not retried. -/
def isClientError : DoErr → Bool
  | .permis _ _ s => decide (400 ≤ s) && decide (s < 500)
  | .network _ => false

/-- Result of one `BaseClient.Request` call: success, a final error, or
the context error returned when cancellation fires during a backoff
sleep. -/
inductive ReqResult where
  | success
  | failure (e : DoErr)
  | ctxCancelled
deriving Repr, DecidableEq

/-- Embedding of the retry loop of `BaseClient.Request`. `outcome n` is
the oracled result of the `doRequest` call of attempt number `n` (`none`
is success); `cancelled n` says whether the caller context is observed
cancelled during the backoff sleep preceding attempt `n`. Arguments:
remaining loop iterations (`retryAttempts + 1 - attempt` at entry), the
current attempt index, and the last error. Returns the call result, the
number of `doRequest` attempts actually performed, and the list of
backoff durations slept, in milliseconds (`attempt * attempt * 100`). -/
def requestAux (outcome : Nat → Option DoErr) (cancelled : Nat → Bool) :
    Nat → Nat → Option DoErr → ReqResult × Nat × List Nat
  | 0, _, last =>
    ((match last with
      | some e => ReqResult.failure e
      | none => ReqResult.success), 0, [])
  | fuel + 1, attempt, _ =>
    if 0 < attempt ∧ cancelled attempt = true then
      (.ctxCancelled, 0, [])
    else
      let backoffs : List Nat := if 0 < attempt then [attempt * attempt * 100] else []
      match outcome attempt with
      | none => (.success, 1, backoffs)
      | some e =>
        if isClientError e then (.failure e, 1, backoffs)
        else
          let r := requestAux outcome cancelled fuel (attempt + 1) (some e)
          (r.1, r.2.1 + 1, backoffs ++ r.2.2)

/-- Embedding of `BaseClient.Request`: the loop runs for attempt indices
0 through `retryAttempts` inclusive, starting with no last error. -/
def request (retryAttempts : Nat) (outcome : Nat → Option DoErr)
    (cancelled : Nat → Bool) : ReqResult × Nat × List Nat :=
  requestAux outcome cancelled (retryAttempts + 1) 0 none

/-- Backoff durations of the retries numbered `a, a+1, ...` for `f`
consecutive retrying iterations: `attempt * attempt * 100` milliseconds
each. -/
def backoffsFrom (a : Nat) : Nat → List Nat
  | 0 => []
  | f + 1 => a * a * 100 :: backoffsFrom (a + 1) f

theorem backoffsFrom_chain (f : Nat) : ∀ a, 0 < a →
    List.Chain' (· < ·) (backoffsFrom a f) := by
  induction f with
  | zero => intro a _; simp [backoffsFrom]
  | succ f2 ih =>
    intro a ha
    cases f2 with
    | zero => simp [backoffsFrom]
    | succ f3 =>
      rw [backoffsFrom, backoffsFrom]
      refine List.chain'_cons.mpr ⟨?_, ?_⟩
      · have h1 : a * a < (a + 1) * (a + 1) := by nlinarith
        nlinarith
      · rw [← backoffsFrom]
        exact ih (a + 1) (by omega)

theorem requestAux_allRetryFail (outcome : Nat → Option DoErr)
    (cancelled : Nat → Bool)
    (hc : ∀ k, cancelled k = false)
    (hf : ∀ k, ∃ e, outcome k = some e ∧ isClientError e = false) :
    ∀ (fuel a : Nat) (le : DoErr), 1 ≤ a →
      ∃ e, requestAux outcome cancelled fuel a (some le) =
        (.failure e, fuel, backoffsFrom a fuel) := by
  intro fuel
  induction fuel with
  | zero =>
    intro a le _
    exact ⟨le, rfl⟩
  | succ f ih =>
    intro a le ha
    obtain ⟨e, he, hce⟩ := hf a
    obtain ⟨e2, he2⟩ := ih (a + 1) e (by omega)
    refine ⟨e2, ?_⟩
    rw [requestAux]
    rw [if_neg (show ¬(0 < a ∧ cancelled a = true) from by simp [hc a])]
    rw [he]
    simp [hce, he2, show 0 < a from by omega, backoffsFrom]

/-- C4. With the default attempt budget (`DefaultRetryAttempts = 3`
retries): a call failing twice with a 500-status structured error and
succeeding on the third attempt returns success after exactly 3 attempts
with the strictly increasing backoffs 100ms and 400ms (attempt squared
times 100ms); a first-attempt structured error with any status in
400..499 (404 in particular) is returned after exactly 1 attempt with no
backoff; and when every attempt fails with a network-level or 5xx
(retryable) error the loop performs the full budget of
`retryAttempts + 1` attempts and returns the last failure. -/
theorem request_retry_spec (outcome : Nat → Option DoErr)
    (cancelled : Nat → Bool) :
    (∀ m0 c0 m1 c1, outcome 0 = some (.permis m0 c0 500) →
      outcome 1 = some (.permis m1 c1 500) → outcome 2 = none →
      cancelled 1 = false → cancelled 2 = false →
      request DefaultRetryAttempts outcome cancelled =
        (.success, 3, [100, 400]) ∧ List.Chain' (· < ·) [100, 400])
    ∧ (∀ m c s, outcome 0 = some (.permis m c s) → 400 ≤ s → s < 500 →
      request DefaultRetryAttempts outcome cancelled =
        (.failure (.permis m c s), 1, []))
    ∧ (∀ ra, (∀ k, cancelled k = false) →
      (∀ k, ∃ e, outcome k = some e ∧ isClientError e = false) →
      ∃ e, request ra outcome cancelled =
        (.failure e, ra + 1, backoffsFrom 1 ra) ∧
        List.Chain' (· < ·) (backoffsFrom 1 ra)) := by
  refine ⟨?_, ?_, ?_⟩
  · intro m0 c0 m1 c1 h0 h1 h2 hc1 hc2
    refine ⟨?_, by simp⟩
    rw [request, DefaultRetryAttempts]
    simp [requestAux, h0, h1, h2, hc1, hc2, isClientError]
  · intro m c s h0 h400 h500
    rw [request, DefaultRetryAttempts]
    simp [requestAux, h0, isClientError, h400, h500]
  · intro ra hc hf
    obtain ⟨e0, he0, hce0⟩ := hf 0
    cases ra with
    | zero =>
      refine ⟨e0, ?_, by simp [backoffsFrom]⟩
      rw [request, requestAux,
        if_neg (show ¬(0 < 0 ∧ cancelled 0 = true) from by simp)]
      rw [he0]
      simp [hce0, requestAux, backoffsFrom]
    | succ ra2 =>
      obtain ⟨e, he⟩ := requestAux_allRetryFail outcome cancelled hc hf
        (ra2 + 1) 1 e0 (by omega)
      refine ⟨e, ?_, backoffsFrom_chain _ 1 (by omega)⟩
      rw [request, requestAux,
        if_neg (show ¬(0 < 0 ∧ cancelled 0 = true) from by simp)]
      rw [he0]
      simp [hce0, he]

def wOutcomeA : Nat → Option DoErr := fun n =>
  if n < 2 then some (.permis "internal" "" 500) else none

def wOutcomeB : Nat → Option DoErr := fun n =>
  if n = 0 then some (.permis "missing" "NOT_FOUND" 404) else none

def wOutcomeC : Nat → Option DoErr := fun _ => some (.network "dial tcp refused")

def wNoCancel : Nat → Bool := fun _ => false

theorem request_retry_spec_witness :
    (request DefaultRetryAttempts wOutcomeA wNoCancel =
      (.success, 3, [100, 400]) ∧ List.Chain' (· < ·) [100, 400])
    ∧ request DefaultRetryAttempts wOutcomeB wNoCancel =
        (.failure (.permis "missing" "NOT_FOUND" 404), 1, [])
    ∧ ∃ e, request 3 wOutcomeC wNoCancel =
        (.failure e, 3 + 1, backoffsFrom 1 3) ∧
        List.Chain' (· < ·) (backoffsFrom 1 3) :=
  ⟨(request_retry_spec wOutcomeA wNoCancel).1 "internal" "" "internal" ""
      rfl rfl rfl rfl rfl,
   (request_retry_spec wOutcomeB wNoCancel).2.1 "missing" "NOT_FOUND" 404
      rfl (by decide) (by decide),
   (request_retry_spec wOutcomeC wNoCancel).2.2 3 (fun _ => rfl)
      (fun _ => ⟨.network "dial tcp refused", rfl, rfl⟩)⟩

theorem requestAux_cancelDuringBackoff (outcome : Nat → Option DoErr)
    (cancelled : Nat → Bool) (k : Nat)
    (hfail : ∀ j, j < k → ∃ e, outcome j = some e ∧ isClientError e = false)
    (hcope : ∀ j, j < k → cancelled j = false)
    (hk : cancelled k = true) :
    ∀ (fuel a : Nat) (le : DoErr), 1 ≤ a → a ≤ k → k < a + fuel →
      requestAux outcome cancelled fuel a (some le) =
        (.ctxCancelled, k - a, backoffsFrom a (k - a)) := by
  intro fuel
  induction fuel with
  | zero =>
    intro a le _ hak hka
    omega
  | succ f ih =>
    intro a le ha hak hka
    by_cases hEq : a = k
    · subst hEq
      rw [requestAux, if_pos (show 0 < a ∧ cancelled a = true from ⟨by omega, hk⟩)]
      simp [backoffsFrom]
    · have halt : a < k := by omega
      obtain ⟨e, he, hce⟩ := hfail a halt
      have hrec := ih (a + 1) e (by omega) (by omega) (by omega)
      have hcount : k - a = (k - (a + 1)) + 1 := by omega
      rw [requestAux,
        if_neg (show ¬(0 < a ∧ cancelled a = true) from by simp [hcope a halt])]
      rw [he]
      rw [hcount, backoffsFrom]
      simp [hce, hrec, show 0 < a from by omega]

/-- C8. If the caller context is cancelled during the backoff sleep
preceding attempt `k` (with all earlier attempts failing retryably and no
earlier cancellation), `BaseClient.Request` returns the context error
immediately: the result is the cancellation outcome and exactly `k`
attempts were performed, so attempt `k` never runs. -/
theorem request_cancel_spec (outcome : Nat → Option DoErr)
    (cancelled : Nat → Bool) (ra k : Nat) (h1 : 1 ≤ k) (hra : k ≤ ra)
    (hfail : ∀ j, j < k → ∃ e, outcome j = some e ∧ isClientError e = false)
    (hcope : ∀ j, j < k → cancelled j = false)
    (hk : cancelled k = true) :
    request ra outcome cancelled = (.ctxCancelled, k, backoffsFrom 1 (k - 1)) := by
  obtain ⟨e0, he0, hce0⟩ := hfail 0 (by omega)
  have hcount : k - 1 + 1 = k := by omega
  rw [request, requestAux,
    if_neg (show ¬(0 < 0 ∧ cancelled 0 = true) from by simp)]
  rw [he0]
  simp [hce0, requestAux_cancelDuringBackoff outcome cancelled k hfail hcope hk
    ra 1 e0 (by omega) h1 (by omega), hcount]

def wCancelAt2 : Nat → Bool := fun n => n = 2

theorem request_cancel_spec_witness :
    request 3 wOutcomeC wCancelAt2 = (.ctxCancelled, 2, backoffsFrom 1 1) :=
  request_cancel_spec wOutcomeC wCancelAt2 3 2 (by decide) (by decide)
    (fun j _ => ⟨.network "dial tcp refused", rfl, rfl⟩)
    (fun j hj => by
      simp [wCancelAt2]
      omega)
    (by decide)

/-- The mutable scope cell of the client, sequentially: the Go flag
`scopeInitialized` (here `scopeInitDone`) plus the two config fields that
`Config.UpdateScope` writes. -/
structure ScopeState where
  scopeInitDone : Bool
  projectID : String
  environmentID : String
deriving Repr, DecidableEq

/-- `Config.HasScope`: both identifiers nonempty. -/
def hasScope (s : ScopeState) : Bool :=
  s.projectID != "" && s.environmentID != ""

/-- Oracled outcome of the one network exchange `fetchAndSetScope` can
perform against the scope-discovery endpoint: transport failure, non-200
response, decode failure, or a decoded scope pair. -/
inductive FetchScopeOutcome where
  | netErr (msg : String)
  | httpErr (status : Nat) (body : String)
  | decodeErr (msg : String)
  | ok (projectID environmentID : String)
deriving Repr, DecidableEq

/-- Embedding of `Client.fetchAndSetScope`: each failure kind is swallowed
when a scope is already present (the concurrent-race branches of the Go
code) and is a descriptive error naming both remediation paths otherwise;
a decoded response stores the pair via `Config.UpdateScope`. -/
def fetchAndSetScope (s : ScopeState) (o : FetchScopeOutcome) :
    Except String Unit × ScopeState :=
  match o with
  | .netErr m =>
    if hasScope s then (.ok (), s)
    else (.error ("failed to fetch API key scope: " ++ m ++
      ". Either provide projectId and environmentId in config, " ++
      "or ensure the API key has valid scope"), s)
  | .httpErr st body =>
    if hasScope s then (.ok (), s)
    else (.error ("failed to fetch API key scope: status " ++ toString st ++
      ", body: " ++ body ++
      ". Either provide projectId and environmentId in config, " ++
      "or ensure the API key has valid scope"), s)
  | .decodeErr m =>
    if hasScope s then (.ok (), s)
    else (.error ("failed to decode API key scope: " ++ m), s)
  | .ok p e => (.ok (), { s with projectID := p, environmentID := e })

/-- Embedding of `Client.ensureScope` as one sequential state transition:
the fast path returns immediately when the flag is set or a scope is
configured, otherwise one fetch runs (under the lock, elided in the
sequential model) and on success the initialized flag is set. The Bool
records whether the network request was issued. -/
def ensureScopeStep (s : ScopeState) (o : FetchScopeOutcome) :
    Except String Unit × ScopeState × Bool :=
  if s.scopeInitDone || hasScope s then (.ok (), s, false)
  else
    match fetchAndSetScope s o with
    | (.error e, s2) => (.error e, s2, true)
    | (.ok _, s2) => (.ok (), { s2 with scopeInitDone := true }, true)

/-- A sequence of `ensureScope` calls with oracled fetch outcomes,
returning the final scope state. -/
def runEnsure (s : ScopeState) : List FetchScopeOutcome → ScopeState
  | [] => s
  | o :: os => runEnsure (ensureScopeStep s o).2.1 os

theorem ensureScopeStep_known (s : ScopeState) (o : FetchScopeOutcome)
    (h : s.scopeInitDone = true ∨ hasScope s = true) :
    ensureScopeStep s o = (.ok (), s, false) := by
  rw [ensureScopeStep, if_pos]
  rcases h with h | h <;> simp [h]

theorem runEnsure_known : ∀ (os : List FetchScopeOutcome) (s : ScopeState),
    s.scopeInitDone = true ∨ hasScope s = true → runEnsure s os = s := by
  intro os
  induction os with
  | nil => intro s _; rfl
  | cons o rest ih =>
    intro s h
    rw [runEnsure, ensureScopeStep_known s o h]
    exact ih s h

theorem ensureScopeStep_state (s : ScopeState) (o : FetchScopeOutcome) :
    (ensureScopeStep s o).2.1 = s ∨ (ensureScopeStep s o).2.1.scopeInitDone = true := by
  rw [ensureScopeStep]
  by_cases h : (s.scopeInitDone || hasScope s) = true
  · rw [if_pos h]
    exact Or.inl rfl
  · rw [if_neg h]
    cases o with
    | netErr m =>
      rw [fetchAndSetScope]
      by_cases hs : hasScope s = true
      · rw [if_pos hs]; simp
      · rw [if_neg hs]; simp
    | httpErr st body =>
      rw [fetchAndSetScope]
      by_cases hs : hasScope s = true
      · rw [if_pos hs]; simp
      · rw [if_neg hs]; simp
    | decodeErr m =>
      rw [fetchAndSetScope]
      by_cases hs : hasScope s = true
      · rw [if_pos hs]; simp
      · rw [if_neg hs]; simp
    | ok p e =>
      rw [fetchAndSetScope]
      simp

/-- C6. Sequentially: when the scope is already known (flag set after a
previous successful resolution, or both identifiers pre-configured) every
`ensureScope` call succeeds immediately, issues no network request and
leaves the state untouched — over a whole call sequence too; and any call
that changes the state leaves the initialized flag set, so every later
call is a no-op: the scope pair is single-assignment across `ensureScope`
calls. -/
theorem ensureScope_spec (s : ScopeState) (o : FetchScopeOutcome)
    (os : List FetchScopeOutcome) :
    (s.scopeInitDone = true ∨ hasScope s = true →
      ensureScopeStep s o = (.ok (), s, false))
    ∧ ((ensureScopeStep s o).2.1 = s ∨
        (ensureScopeStep s o).2.1.scopeInitDone = true)
    ∧ (s.scopeInitDone = true ∨ hasScope s = true → runEnsure s os = s)
    ∧ ((ensureScopeStep s o).2.1 ≠ s →
        runEnsure (ensureScopeStep s o).2.1 os = (ensureScopeStep s o).2.1) := by
  refine ⟨ensureScopeStep_known s o, ensureScopeStep_state s o,
    runEnsure_known os s, ?_⟩
  intro hne
  rcases ensureScopeStep_state s o with h | h
  · exact absurd h hne
  · exact runEnsure_known os _ (Or.inl h)

theorem ensureScope_spec_witness :
    ensureScopeStep ⟨false, "proj", "env"⟩ (.netErr "refused") =
      (.ok (), ⟨false, "proj", "env"⟩, false)
    ∧ runEnsure ⟨true, "", ""⟩ [.ok "p2" "e2"] = ⟨true, "", ""⟩
    ∧ ((ensureScopeStep ⟨false, "", ""⟩ (.ok "p1" "e1")).2.1 ≠ ⟨false, "", ""⟩ →
        runEnsure (ensureScopeStep ⟨false, "", ""⟩ (.ok "p1" "e1")).2.1
            [.ok "p3" "e3", .netErr "boom"] =
          (ensureScopeStep ⟨false, "", ""⟩ (.ok "p1" "e1")).2.1)
    ∧ (ensureScopeStep ⟨false, "", ""⟩ (.ok "p1" "e1")).2.1 = ⟨true, "p1", "e1"⟩ :=
  ⟨(ensureScope_spec ⟨false, "proj", "env"⟩ (.netErr "refused") []).1
      (Or.inr (by decide)),
   (ensureScope_spec ⟨true, "", ""⟩ (.netErr "ignored") [.ok "p2" "e2"]).2.2.1
      (Or.inl rfl),
   (ensureScope_spec ⟨false, "", ""⟩ (.ok "p1" "e1")
      [.ok "p3" "e3", .netErr "boom"]).2.2.2,
   by decide⟩

end Permisio
